import Mathlib

/-!
Verification of the habit-tracker streak-analytics engine.

Calendar dates are modelled as integers (days since an arbitrary epoch), so
that subtraction of dates yields the day difference, exactly as
`(d2 - d1).days` does in the source. The `Habit` record mirrors the fields of
the Python `Habit` class; fallible operations return `Except String`.
-/

namespace HabitTracker

/-- The habit record, mirroring `habit.py`'s `Habit` class: identity, name,
periodicity string, start date, list of completion dates (in insertion order),
and the `max_streak` field initialised at construction. -/
structure Habit where
  id : Int
  name : String
  periodicity : String
  start_date : Int
  completions : List Int
  max_streak : Nat
deriving Repr, DecidableEq

/-- Constructor embedding `Habit.__init__`: rejects a periodicity outside
`{"daily", "weekly"}` (the keys of `VALID_PERIODICITY`), otherwise produces a
habit with empty completions and `max_streak = 1`. -/
def Habit.create (habit_id : Int) (name periodicity : String) (start_date : Int) :
    Except String Habit :=
  if periodicity = "daily" ∨ periodicity = "weekly" then
    .ok { id := habit_id, name := name, periodicity := periodicity,
          start_date := start_date, completions := [], max_streak := 1 }
  else
    .error "periodicity must be daily or weekly"

/-- Embedding of `Habit.complete`: the optional argument defaults to the
ambient current date `today`; a date before `start_date` raises; otherwise the
date is appended only if not already present. -/
def Habit.complete (h : Habit) (today : Int) (completion_date : Option Int) :
    Except String Habit :=
  let d := completion_date.getD today
  if d < h.start_date then
    .error "completion date cannot be before than start date"
  else if d ∈ h.completions then
    .ok h
  else
    .ok { h with completions := h.completions ++ [d] }

/-- Embedding of `Habit.reset`: clears all completions. -/
def Habit.reset (h : Habit) : Habit :=
  { h with completions := [] }

/-- Running `complete` as a state transformer: when the call raises, the
exception propagates before any mutation, so the habit is unchanged. -/
def applyComplete (h : Habit) (today : Int) (completion_date : Option Int) : Habit :=
  match h.complete today completion_date with
  | .ok h' => h'
  | .error _ => h

/-- The public mutating operations on a habit. -/
inductive Op where
  | complete (today : Int) (completion_date : Option Int)
  | reset
deriving Repr

/-- Apply one public operation. -/
def applyOp (h : Habit) : Op → Habit
  | .complete today cd => applyComplete h today cd
  | .reset => h.reset

/-- Run a sequence of public operations from a starting state. -/
def runOps (h : Habit) (ops : List Op) : Habit :=
  ops.foldl applyOp h

/-- The expected gap between consecutive completions:
`1 if habit.periodicity == "daily" else 7`. -/
def expectedGap (periodicity : String) : Int :=
  if periodicity = "daily" then 1 else 7

/-- Embedding of Python's `sorted(set(xs))`: remove duplicates, sort
ascending. -/
def dedupSort (l : List Int) : List Int :=
  l.dedup.insertionSort (· ≤ ·)

/-- The loop of `longest_streak_for_habit`: walks the remaining dates with the
previous date, the current streak and the maximum streak so far; a delta equal
to the expected gap extends the current streak, anything else resets it to 1;
the maximum is updated after every step. -/
def streakFold (gap : Int) : List Int → Int → Nat → Nat → Nat
  | [], _, _, maxStreak => maxStreak
  | d :: rest, prev, cur, maxStreak =>
    let cur' := if d - prev = gap then cur + 1 else 1
    streakFold gap rest d cur' (max maxStreak cur')

/-- Embedding of `longest_streak_for_habit`: 0 with no completions, otherwise
the forward walk over the sorted, deduplicated dates starting from
`max_streak = current_streak = 1`. -/
def longest_streak_for_habit (h : Habit) : Nat :=
  if h.completions = [] then 0
  else
    match dedupSort h.completions with
    | [] => 1
    | d :: rest => streakFold (expectedGap h.periodicity) rest d 1 1

/-- The backward loop of `current_streak_for_habit`: walks the sorted dates
from the end (given here as the reversed earlier dates), extending the streak
while each delta equals the expected gap and stopping at the first mismatch. -/
def backStreak (gap : Int) : List Int → Int → Nat → Nat
  | [], _, streak => streak
  | d :: rest, next, streak =>
    if next - d = gap then backStreak gap rest d (streak + 1) else streak

/-- Embedding of `current_streak_for_habit`, with the ambient `date.today()`
made an explicit `today` parameter: 0 with no completions, 0 when the last
completion is more than the expected gap before `today`, otherwise the
backward walk from the most recent completion. -/
def current_streak_for_habit (h : Habit) (today : Int) : Nat :=
  if h.completions = [] then 0
  else
    match (dedupSort h.completions).reverse with
    | [] => 0
    | last :: prevs =>
      if today - last > expectedGap h.periodicity then 0
      else backStreak (expectedGap h.periodicity) prevs last 1

/-- Embedding of `list_habits`: one `{name: periodicity}` entry per habit,
modelled as a pair. -/
def list_habits (habits : List Habit) : List (String × String) :=
  if habits = [] then []
  else habits.map (fun h => (h.name, h.periodicity))

/-- Embedding of `habit_summary_with_current_streak` (with the ambient current
date passed explicitly to the per-habit current-streak computation). -/
def habit_summary_with_current_streak (habits : List Habit) (today : Int) :
    List (String × String × Nat) :=
  habits.map (fun h => (h.name, h.periodicity, current_streak_for_habit h today))

/-- The loop of `longest_streak_all_habits`: accumulates the maximum streak
seen and the names achieving it; a strictly larger streak restarts the name
list, an equal streak appends. -/
def lsahLoop : List Habit → List String → Nat → List String × Nat
  | [], acc, maxStreak => (acc, maxStreak)
  | h :: rest, acc, maxStreak =>
    let streak := longest_streak_for_habit h
    if maxStreak < streak then lsahLoop rest [h.name] streak
    else if streak = maxStreak then lsahLoop rest (acc ++ [h.name]) maxStreak
    else lsahLoop rest acc maxStreak

/-- Embedding of `longest_streak_all_habits`: `([], 0)` for no habits,
otherwise the loop starting from `max_streak = 0` and an empty name list. -/
def longest_streak_all_habits (habits : List Habit) : List String × Nat :=
  if habits = [] then ([], 0)
  else lsahLoop habits [] 0

/-- First-match lookup in an insertion-ordered dictionary, as Python's
`periodicity in result` / `result[periodicity]`. -/
def dictFind : List (String × String × Nat) → String → Option (String × Nat)
  | [], _ => none
  | (k, v) :: rest, key => if k = key then some v else dictFind rest key

/-- In-place value update in an insertion-ordered dictionary: replaces the
value of the first entry with the given key, keeping key order (Python dict
assignment to an existing key). -/
def dictUpdate : List (String × String × Nat) → String → String × Nat →
    List (String × String × Nat)
  | [], _, _ => []
  | (k, v) :: rest, key, val =>
    if k = key then (k, val) :: rest else (k, v) :: dictUpdate rest key val

/-- The loop of `longest_streak_by_periodicity`: a missing periodicity key is
inserted at the end (dict insertion order); an existing key is overwritten
only when the new streak is strictly larger. -/
def lsbpLoop : List Habit → List (String × String × Nat) → List (String × String × Nat)
  | [], result => result
  | h :: rest, result =>
    let streak := longest_streak_for_habit h
    match dictFind result h.periodicity with
    | none => lsbpLoop rest (result ++ [(h.periodicity, h.name, streak)])
    | some (_, best_streak) =>
      if best_streak < streak then
        lsbpLoop rest (dictUpdate result h.periodicity (h.name, streak))
      else lsbpLoop rest result

/-- Embedding of `longest_streak_by_periodicity`, the Python dict modelled as
an insertion-ordered association list. -/
def longest_streak_by_periodicity (habits : List Habit) :
    List (String × String × Nat) :=
  lsbpLoop habits []

/-! ### Specification-side definitions

Independent characterisations, written from the specification's wording, to
be compared with the loop-based source embeddings above. -/

/-- How many leading elements of `l` continue a gap-run from `prev`: the
length of the longest initial segment in which each date follows its
predecessor by exactly `gap`. -/
def runCont (gap : Int) : List Int → Int → Nat
  | [], _ => 0
  | d :: rest, prev => if d - prev = gap then 1 + runCont gap rest d else 0

/-- The maximum length of a run of consecutive dates in which each adjacent
pair differs by exactly `gap`: the maximum, over all start positions, of one
plus the run continuing from there. -/
def maxRunLen (gap : Int) : List Int → Nat
  | [] => 0
  | d :: rest => max (1 + runCont gap rest d) (maxRunLen gap rest)

/-- The length of the maximal trailing run of `s`: one plus the number of
adjacent pairs, read backward from the most recent date, whose difference is
exactly `gap`, stopping at the first mismatch. -/
def trailingRunLen (gap : Int) (s : List Int) : Nat :=
  1 + ((s.reverse.zip s.reverse.tail).takeWhile (fun p => p.1 - p.2 = gap)).length

/-- The date the forward walk ends on: the last element of `l`, or `prev` if
`l` is empty. -/
def finalPrev : List Int → Int → Int
  | [], prev => prev
  | d :: rest, _ => finalPrev rest d

/-- The value of the running streak counter after the forward walk over `l`
starting from previous date `prev` and counter `cur`. -/
def finalCur (gap : Int) : List Int → Int → Nat → Nat
  | [], _, cur => cur
  | d :: rest, prev, cur => finalCur gap rest d (if d - prev = gap then cur + 1 else 1)

/-- The forward maximum-streak walk over a whole (sorted) date list. -/
def maxStreakOfList (gap : Int) : List Int → Nat
  | [] => 0
  | d :: rest => streakFold gap rest d 1 1

/-- The trailing streak computed forward: the final value of the running
streak counter over a whole (sorted) date list. -/
def fwdTrail (gap : Int) : List Int → Nat
  | [] => 0
  | d :: rest => finalCur gap rest d 1

/-- The trailing streak computed backward from the most recent date, as the
source's `current_streak_for_habit` loop does. -/
def trailStreakOf (gap : Int) (s : List Int) : Nat :=
  match s.reverse with
  | [] => 0
  | last :: prevs => backStreak gap prevs last 1

/-- Agreement on every habit field the analytics engine reads. -/
def AgreeOn (h₁ h₂ : Habit) : Prop :=
  h₁.name = h₂.name ∧ h₁.periodicity = h₂.periodicity ∧ h₁.completions = h₂.completions

/-- The maximum of `longest_streak_for_habit` over a habit list, 0 when
empty. -/
def maxLongest (habits : List Habit) : Nat :=
  (habits.map longest_streak_for_habit).foldr max 0

/-- Deduplication keeping the first occurrence of each element, in order --
the key order of a Python dict built by repeated insertion. -/
def firstDedup : List String → List String
  | [] => []
  | a :: l => a :: (firstDedup l).filter (fun b => b ≠ a)

/-- Folding a bucket of habits against a current best `(name, streak)` pair:
a strictly larger streak replaces the best, so on ties the earlier habit is
kept. -/
def bucketFold (best : String × Nat) : List Habit → String × Nat
  | [] => best
  | h :: rest =>
    bucketFold
      (if best.2 < longest_streak_for_habit h
        then (h.name, longest_streak_for_habit h) else best) rest

/-- The winner of a bucket of habits (all of one periodicity, in input
order): the first habit with the highest `longest_streak_for_habit`. -/
def bucketWinner : List Habit → String × Nat
  | [] => ("", 0)
  | b :: rest => bucketFold (b.name, longest_streak_for_habit b) rest

/-- The periodicity values occurring among the habits, in order of first
occurrence. -/
def keyOrder (habits : List Habit) : List String :=
  firstDedup (habits.map (fun h => h.periodicity))

/-- Specification-side rendering of `longest_streak_by_periodicity`: one
entry per periodicity in first-occurrence order, whose value is the winner of
that periodicity's bucket. -/
def lsbpSpec (habits : List Habit) : List (String × String × Nat) :=
  (keyOrder habits).map
    (fun p => (p, bucketWinner (habits.filter (fun h => h.periodicity = p))))

/-- Updating one dictionary entry by folding the bucket of a remaining habit
list for that entry's key onto its current value. -/
def lsbpUpd (rest : List Habit) (e : String × String × Nat) : String × String × Nat :=
  (e.1, bucketFold e.2 (rest.filter (fun h => h.periodicity = e.1)))

/-- The dictionary entries newly created while processing `rest` when the
keys `ks` already exist: one entry per fresh periodicity in first-occurrence
order, valued by that periodicity's bucket within `rest`. -/
def lsbpNew (ks : List String) (rest : List Habit) : List (String × String × Nat) :=
  (firstDedup ((rest.filter (fun h => h.periodicity ∉ ks)).map (fun h => h.periodicity))).map
    (fun p => (p, bucketWinner (rest.filter (fun h => h.periodicity = p))))

/-- The habit invariants: a valid periodicity, no completion before the start
date, and no duplicate completion dates. -/
def Habit.inv (h : Habit) : Prop :=
  (h.periodicity = "daily" ∨ h.periodicity = "weekly") ∧
  (∀ d ∈ h.completions, h.start_date ≤ d) ∧ h.completions.Nodup

/-- A concrete habit with a single completion, for witnesses. -/
def exSingle : Habit :=
  { id := 1, name := "reading", periodicity := "daily", start_date := 0,
    completions := [0], max_streak := 1 }

/-- A concrete daily habit completed on days 0..4, for witnesses. -/
def exDaily : Habit :=
  { id := 2, name := "workout", periodicity := "daily", start_date := 0,
    completions := [0, 1, 2, 3, 4], max_streak := 1 }

/-- A concrete weekly habit completed on days 0, 7, 14, then 28, for
witnesses. -/
def exWeekly : Habit :=
  { id := 3, name := "review", periodicity := "weekly", start_date := 0,
    completions := [0, 7, 14, 28], max_streak := 1 }

/-- The same completion set as `exDaily`, inserted in another order with
duplicates, for the order-independence witness. -/
def exDailyShuffled : Habit :=
  { id := 4, name := "workout", periodicity := "daily", start_date := 0,
    completions := [4, 2, 0, 2, 1, 3, 0], max_streak := 1 }

/-- A habit agreeing with `exDaily` on every field the analytics read, but
differing on id, start date and stored `max_streak`. -/
def exDailyAlt : Habit :=
  { id := 99, name := "workout", periodicity := "daily", start_date := -5,
    completions := [0, 1, 2, 3, 4], max_streak := 7 }

/-- `exDaily` after completing day 10, for the idempotence witness. -/
def exDailyPlus : Habit :=
  { id := 2, name := "workout", periodicity := "daily", start_date := 0,
    completions := [0, 1, 2, 3, 4, 10], max_streak := 1 }

/-- The habit produced by `Habit.create 7 "meditate" "daily" 0`, for the
invariant witness. -/
def exCreated : Habit :=
  { id := 7, name := "meditate", periodicity := "daily", start_date := 0,
    completions := [], max_streak := 1 }

/-! ### Lemmas about `dedupSort` -/

theorem dedupSort_perm (l : List Int) : List.Perm (dedupSort l) l.dedup :=
  List.perm_insertionSort _ _

theorem dedupSort_sorted (l : List Int) : (dedupSort l).Sorted (· ≤ ·) :=
  List.sorted_insertionSort _ _

theorem dedupSort_eq_nil_iff (l : List Int) : dedupSort l = [] ↔ l = [] := by
  constructor
  · intro h
    have hp := (dedupSort_perm l).symm
    rw [h] at hp
    exact (List.dedup_eq_nil l).mp hp.eq_nil
  · intro h
    subst h
    rfl

theorem dedupSort_congr {l₁ l₂ : List Int} (h : l₁.toFinset = l₂.toFinset) :
    dedupSort l₁ = dedupSort l₂ := by
  have hp : List.Perm l₁.dedup l₂.dedup := List.toFinset_eq_iff_perm_dedup.mp h
  exact List.eq_of_perm_of_sorted
    ((dedupSort_perm l₁).trans (hp.trans (dedupSort_perm l₂).symm))
    (dedupSort_sorted l₁) (dedupSort_sorted l₂)

theorem dedupSort_length (l : List Int) : (dedupSort l).length = l.toFinset.card := by
  rw [List.card_toFinset]
  exact (dedupSort_perm l).length_eq

/-! ### The forward walk computes the maximum run length -/

theorem streakFold_eq (gap : Int) (l : List Int) :
    ∀ prev cur maxStreak, streakFold gap l prev cur maxStreak =
      max maxStreak
        (max (if runCont gap l prev = 0 then 0 else cur + runCont gap l prev)
          (maxRunLen gap l)) := by
  induction l with
  | nil => intro prev cur maxStreak; simp [streakFold, runCont, maxRunLen]
  | cons d rest ih =>
    intro prev cur maxStreak
    simp only [streakFold, runCont, maxRunLen]
    rw [ih]
    split_ifs <;> omega

theorem maxRunLen_pos (gap : Int) (d : Int) (rest : List Int) :
    1 ≤ maxRunLen gap (d :: rest) := by
  simp only [maxRunLen]
  omega

theorem longest_streak_cons {h : Habit} {d : Int} {rest : List Int}
    (hc : h.completions ≠ []) (heq : dedupSort h.completions = d :: rest) :
    longest_streak_for_habit h = streakFold (expectedGap h.periodicity) rest d 1 1 := by
  rw [longest_streak_for_habit, if_neg hc, heq]

theorem longest_eq_maxRunLen (h : Habit) :
    longest_streak_for_habit h =
      maxRunLen (expectedGap h.periodicity) (dedupSort h.completions) := by
  by_cases hc : h.completions = []
  · rw [longest_streak_for_habit, if_pos hc, hc]
    rfl
  · have hne : dedupSort h.completions ≠ [] := by
      intro he
      exact hc ((dedupSort_eq_nil_iff _).mp he)
    obtain ⟨d, rest, heq⟩ := List.exists_cons_of_ne_nil hne
    rw [longest_streak_cons hc heq, heq, streakFold_eq]
    simp only [maxRunLen]
    split_ifs <;> omega

/-- C1: `longest_streak_for_habit` returns the maximum length of a run of
consecutive dates, in the deduplicated ascending-sorted completion dates, in
which each adjacent pair differs by exactly the expected gap (1 day for daily
habits, 7 days for weekly habits); it is 0 exactly when the habit has no
completions, and a habit with exactly one distinct completion date yields
1. -/
theorem C1_longest_streak_spec (h : Habit) :
    longest_streak_for_habit h
        = maxRunLen (expectedGap h.periodicity) (dedupSort h.completions) ∧
    expectedGap "daily" = 1 ∧ expectedGap "weekly" = 7 ∧
    (longest_streak_for_habit h = 0 ↔ h.completions = []) ∧
    (h.completions.toFinset.card = 1 → longest_streak_for_habit h = 1) := by
  refine ⟨longest_eq_maxRunLen h, rfl, rfl, ⟨?_, ?_⟩, ?_⟩
  · intro h0
    by_contra hc
    have hne : dedupSort h.completions ≠ [] := fun he => hc ((dedupSort_eq_nil_iff _).mp he)
    obtain ⟨d, rest, heq⟩ := List.exists_cons_of_ne_nil hne
    have hmx := longest_eq_maxRunLen h
    rw [heq] at hmx
    have hpos := maxRunLen_pos (expectedGap h.periodicity) d rest
    omega
  · intro hc
    rw [longest_streak_for_habit, if_pos hc]
  · intro hcard
    have hlen : (dedupSort h.completions).length = 1 := by
      rw [dedupSort_length, hcard]
    obtain ⟨d, heqd⟩ := List.length_eq_one.mp hlen
    have hc : h.completions ≠ [] := by
      intro he
      rw [(dedupSort_eq_nil_iff h.completions).mpr he] at heqd
      exact List.cons_ne_nil d [] heqd.symm
    rw [longest_streak_cons hc heqd]
    rfl

/-- Witness for C1 at a habit with exactly one completion. -/
theorem C1_witness :
    exSingle.completions.toFinset.card = 1 ∧ longest_streak_for_habit exSingle = 1 :=
  ⟨by decide, (C1_longest_streak_spec exSingle).2.2.2.2 (by decide)⟩

/-! ### The backward walk computes the trailing run length -/

theorem backStreak_eq_zip (gap : Int) (l : List Int) :
    ∀ next c, backStreak gap l next c =
      c + (((next :: l).zip l).takeWhile (fun p => p.1 - p.2 = gap)).length := by
  induction l with
  | nil => intro next c; simp [backStreak]
  | cons d rest ih =>
    intro next c
    by_cases hd : next - d = gap
    · simp only [backStreak, if_pos hd, List.zip_cons_cons, List.takeWhile_cons, hd]
      rw [ih]
      simp
      omega
    · simp only [backStreak, if_neg hd, List.zip_cons_cons, List.takeWhile_cons]
      simp [hd]

theorem reverse_eq_getLastD_cons (s : List Int) (hs : s ≠ []) :
    ∃ prevs, s.reverse = s.getLastD 0 :: prevs := by
  induction s using List.reverseRecOn with
  | nil => exact absurd rfl hs
  | append_singleton s b _ =>
    refine ⟨s.reverse, ?_⟩
    simp

theorem current_streak_cons {h : Habit} {last : Int} {prevs : List Int} (today : Int)
    (hc : h.completions ≠ []) (heq : (dedupSort h.completions).reverse = last :: prevs) :
    current_streak_for_habit h today =
      if today - last > expectedGap h.periodicity then 0
      else backStreak (expectedGap h.periodicity) prevs last 1 := by
  rw [current_streak_for_habit, if_neg hc, heq]

/-- C2: `current_streak_for_habit` returns 0 with no completions; returns 0
when the most recent completion lies more than the expected gap before the
reference date `today`; and otherwise returns the length of the maximal
trailing run of completions each spaced exactly the expected gap apart, which
is at least 1. -/
theorem C2_current_streak_spec (h : Habit) (today : Int) :
    (h.completions = [] → current_streak_for_habit h today = 0) ∧
    (h.completions ≠ [] →
      (expectedGap h.periodicity < today - (dedupSort h.completions).getLastD 0 →
        current_streak_for_habit h today = 0) ∧
      (today - (dedupSort h.completions).getLastD 0 ≤ expectedGap h.periodicity →
        current_streak_for_habit h today
            = trailingRunLen (expectedGap h.periodicity) (dedupSort h.completions) ∧
        1 ≤ current_streak_for_habit h today)) := by
  constructor
  · intro hc
    rw [current_streak_for_habit, if_pos hc]
  · intro hc
    have hne : dedupSort h.completions ≠ [] := fun he => hc ((dedupSort_eq_nil_iff _).mp he)
    obtain ⟨prevs, heq⟩ := reverse_eq_getLastD_cons _ hne
    constructor
    · intro hl
      rw [current_streak_cons today hc heq, if_pos (by omega)]
    · intro hl
      rw [current_streak_cons today hc heq, if_neg (by omega)]
      rw [backStreak_eq_zip, trailingRunLen, heq]
      simp

/-- Witness for C2: a 5-day daily habit, checked both one day after its last
completion (active, trailing run of 5) and three days after (lapsed). -/
theorem C2_witness :
    exDaily.completions ≠ [] ∧
    current_streak_for_habit exDaily 5
        = trailingRunLen (expectedGap exDaily.periodicity) (dedupSort exDaily.completions) ∧
    current_streak_for_habit exDaily 7 = 0 :=
  ⟨by decide,
    (((C2_current_streak_spec exDaily 5).2 (by decide)).2 (by decide)).1,
    ((C2_current_streak_spec exDaily 7).2 (by decide)).1 (by decide)⟩

/-! ### Relating the backward current-streak walk to the forward walk -/

theorem finalPrev_append_single (l : List Int) (b : Int) :
    ∀ prev, finalPrev (l ++ [b]) prev = b := by
  induction l with
  | nil => intro prev; rfl
  | cons d rest ih => intro prev; exact ih d

theorem finalCur_append_single (gap : Int) (l : List Int) (b : Int) :
    ∀ prev cur, finalCur gap (l ++ [b]) prev cur =
      if b - finalPrev l prev = gap then finalCur gap l prev cur + 1 else 1 := by
  induction l with
  | nil =>
    intro prev cur
    simp only [List.nil_append, finalCur, finalPrev]
  | cons d rest ih =>
    intro prev cur
    simp only [List.cons_append, finalCur, finalPrev, List.append_eq]
    rw [ih]

theorem streakFold_append_single (gap : Int) (l : List Int) (b : Int) :
    ∀ prev cur maxStreak, streakFold gap (l ++ [b]) prev cur maxStreak =
      max (streakFold gap l prev cur maxStreak)
        (if b - finalPrev l prev = gap then finalCur gap l prev cur + 1 else 1) := by
  induction l with
  | nil =>
    intro prev cur maxStreak
    simp only [List.nil_append, streakFold, finalPrev, finalCur]
  | cons d rest ih =>
    intro prev cur maxStreak
    simp only [List.cons_append, streakFold, finalPrev, finalCur, List.append_eq]
    rw [ih]

theorem finalCur_le_streakFold (gap : Int) (l : List Int) :
    ∀ prev cur maxStreak, cur ≤ maxStreak →
      finalCur gap l prev cur ≤ streakFold gap l prev cur maxStreak := by
  induction l with
  | nil =>
    intro prev cur maxStreak hcm
    simpa [finalCur, streakFold] using hcm
  | cons d rest ih =>
    intro prev cur maxStreak _
    simp only [finalCur, streakFold]
    exact ih d _ _ (Nat.le_max_right _ _)

theorem streakFold_le_length (gap : Int) (l : List Int) :
    ∀ prev cur maxStreak,
      streakFold gap l prev cur maxStreak ≤ max maxStreak (cur + l.length) := by
  induction l with
  | nil => intro prev cur maxStreak; simp [streakFold]
  | cons d rest ih =>
    intro prev cur maxStreak
    simp only [streakFold, List.length_cons]
    refine le_trans (ih d _ _) ?_
    split_ifs <;> simp <;> omega

theorem longest_eq_maxStreakOfList (h : Habit) :
    longest_streak_for_habit h =
      maxStreakOfList (expectedGap h.periodicity) (dedupSort h.completions) := by
  by_cases hc : h.completions = []
  · rw [longest_streak_for_habit, if_pos hc, (dedupSort_eq_nil_iff _).mpr hc]
    rfl
  · obtain ⟨d, rest, heq⟩ :=
      List.exists_cons_of_ne_nil (fun he => hc ((dedupSort_eq_nil_iff h.completions).mp he))
    rw [longest_streak_cons hc heq, heq]
    rfl

theorem backStreak_shift (gap : Int) (l : List Int) :
    ∀ next c, backStreak gap l next (c + 1) = backStreak gap l next c + 1 := by
  induction l with
  | nil => intro next c; rfl
  | cons d rest ih =>
    intro next c
    simp only [backStreak]
    split_ifs
    · exact ih d (c + 1)
    · rfl

theorem trailStreakOf_append_single (gap : Int) (s : List Int) (b c : Int) (cs : List Int)
    (heq : s.reverse = c :: cs) :
    trailStreakOf gap (s ++ [b]) = if b - c = gap then trailStreakOf gap s + 1 else 1 := by
  have h1 : (s ++ [b]).reverse = b :: c :: cs := by
    rw [List.reverse_append, heq]
    rfl
  rw [trailStreakOf, h1]
  show (if b - c = gap then backStreak gap cs c (1 + 1) else 1) = _
  rw [trailStreakOf, heq]
  show _ = if b - c = gap then backStreak gap cs c 1 + 1 else 1
  rw [backStreak_shift]

theorem headD_reverse_eq_finalPrev (l : List Int) :
    ∀ prev, ((prev :: l).reverse).headD 0 = finalPrev l prev := by
  induction l with
  | nil => intro prev; rfl
  | cons d rest ih =>
    intro prev
    have h1 : (prev :: d :: rest).reverse = (d :: rest).reverse ++ [prev] := by
      simp
    obtain ⟨x, xs, hx⟩ :=
      List.exists_cons_of_ne_nil (l := (d :: rest).reverse) (by simp)
    have h2 := ih d
    rw [hx] at h2
    rw [h1, hx]
    simp only [List.cons_append, List.headD_cons] at h2 ⊢
    rw [h2]
    rfl

theorem trailStreakOf_eq_fwdTrail (gap : Int) (s : List Int) :
    trailStreakOf gap s = fwdTrail gap s := by
  induction s using List.reverseRecOn with
  | nil => rfl
  | append_singleton s b ih =>
    cases s with
    | nil => rfl
    | cons d rest =>
      obtain ⟨c, cs, hc⟩ :=
        List.exists_cons_of_ne_nil (l := (d :: rest).reverse) (by simp)
      rw [trailStreakOf_append_single gap (d :: rest) b c cs hc, ih]
      have hcp : c = finalPrev rest d := by
        have h2 := headD_reverse_eq_finalPrev rest d
        rw [hc] at h2
        simpa using h2
      show _ = finalCur gap (rest ++ [b]) d 1
      rw [finalCur_append_single, hcp]
      rfl

theorem maxStreakOfList_append_single (gap : Int) (d : Int) (rest : List Int) (b : Int) :
    maxStreakOfList gap ((d :: rest) ++ [b]) =
      max (maxStreakOfList gap (d :: rest)) (fwdTrail gap ((d :: rest) ++ [b])) := by
  show streakFold gap (rest ++ [b]) d 1 1 =
    max (streakFold gap rest d 1 1) (finalCur gap (rest ++ [b]) d 1)
  rw [streakFold_append_single, finalCur_append_single]

theorem fwdTrail_le_maxStreakOfList (gap : Int) (s : List Int) :
    fwdTrail gap s ≤ maxStreakOfList gap s := by
  induction s using List.reverseRecOn with
  | nil => exact Nat.le_refl 0
  | append_singleton s b _ =>
    cases s with
    | nil => exact Nat.le_refl 1
    | cons d rest =>
      rw [maxStreakOfList_append_single]
      exact Nat.le_max_right _ _

/-- C10: for every habit and reference date, the current streak never exceeds
the longest streak, and the longest streak never exceeds the number of
distinct completion dates. -/
theorem C10_streak_bounds (h : Habit) (today : Int) :
    current_streak_for_habit h today ≤ longest_streak_for_habit h ∧
    longest_streak_for_habit h ≤ h.completions.toFinset.card := by
  constructor
  · by_cases hc : h.completions = []
    · rw [current_streak_for_habit, if_pos hc]
      exact Nat.zero_le _
    · have hne : dedupSort h.completions ≠ [] :=
        fun he => hc ((dedupSort_eq_nil_iff h.completions).mp he)
      obtain ⟨prevs, heq⟩ := reverse_eq_getLastD_cons _ hne
      rw [current_streak_cons today hc heq]
      split_ifs
      · exact Nat.zero_le _
      · have h1 : backStreak (expectedGap h.periodicity) prevs
            ((dedupSort h.completions).getLastD 0) 1
            = trailStreakOf (expectedGap h.periodicity) (dedupSort h.completions) := by
          rw [trailStreakOf, heq]
        rw [h1, trailStreakOf_eq_fwdTrail, longest_eq_maxStreakOfList]
        exact fwdTrail_le_maxStreakOfList _ _
  · rw [longest_eq_maxStreakOfList, ← dedupSort_length]
    cases hs : dedupSort h.completions with
    | nil => exact Nat.zero_le _
    | cons d rest =>
      have hb := streakFold_le_length (expectedGap h.periodicity) rest d 1 1
      simp only [maxStreakOfList, List.length_cons]
      omega

/-! ### Order independence and determinism -/

/-- C9: the two streak computations depend on the completion list only
through its set of dates: permutations and duplications change nothing. -/
theorem C9_order_independence (h₁ h₂ : Habit)
    (hper : h₁.periodicity = h₂.periodicity)
    (hset : h₁.completions.toFinset = h₂.completions.toFinset) :
    longest_streak_for_habit h₁ = longest_streak_for_habit h₂ ∧
    ∀ today, current_streak_for_habit h₁ today = current_streak_for_habit h₂ today := by
  have hds : dedupSort h₁.completions = dedupSort h₂.completions := dedupSort_congr hset
  have hnil : h₁.completions = [] ↔ h₂.completions = [] := by
    rw [← dedupSort_eq_nil_iff, ← dedupSort_eq_nil_iff h₂.completions, hds]
  constructor
  · by_cases hc : h₁.completions = []
    · rw [longest_streak_for_habit, if_pos hc,
        longest_streak_for_habit, if_pos (hnil.mp hc)]
    · rw [longest_streak_for_habit, if_neg hc,
        longest_streak_for_habit, if_neg (fun he => hc (hnil.mpr he)), hds, hper]
  · intro today
    by_cases hc : h₁.completions = []
    · rw [current_streak_for_habit, if_pos hc,
        current_streak_for_habit, if_pos (hnil.mp hc)]
    · rw [current_streak_for_habit, if_neg hc,
        current_streak_for_habit, if_neg (fun he => hc (hnil.mpr he)), hds, hper]

/-- Witness for C9: days 0..4 inserted in order versus shuffled with
duplicates. -/
theorem C9_witness :
    exDaily.completions.toFinset = exDailyShuffled.completions.toFinset ∧
    longest_streak_for_habit exDaily = longest_streak_for_habit exDailyShuffled ∧
    current_streak_for_habit exDaily 5 = current_streak_for_habit exDailyShuffled 5 := by
  have h := C9_order_independence exDaily exDailyShuffled rfl (by decide)
  exact ⟨by decide, h.1, h.2 5⟩

theorem longest_congr {h₁ h₂ : Habit} (hh : AgreeOn h₁ h₂) :
    longest_streak_for_habit h₁ = longest_streak_for_habit h₂ := by
  obtain ⟨_, hp, hc⟩ := hh
  simp only [longest_streak_for_habit, hp, hc]

theorem current_congr {h₁ h₂ : Habit} (hh : AgreeOn h₁ h₂) (today : Int) :
    current_streak_for_habit h₁ today = current_streak_for_habit h₂ today := by
  obtain ⟨_, hp, hc⟩ := hh
  simp only [current_streak_for_habit, hp, hc]

theorem lsahLoop_congr {l₁ l₂ : List Habit} (hf : List.Forall₂ AgreeOn l₁ l₂) :
    ∀ acc maxStreak, lsahLoop l₁ acc maxStreak = lsahLoop l₂ acc maxStreak := by
  induction hf with
  | nil => intro acc maxStreak; rfl
  | cons hab htail ih =>
    intro acc maxStreak
    simp only [lsahLoop, longest_congr hab, hab.1]
    split_ifs <;> apply ih

theorem lsbpLoop_congr {l₁ l₂ : List Habit} (hf : List.Forall₂ AgreeOn l₁ l₂) :
    ∀ result, lsbpLoop l₁ result = lsbpLoop l₂ result := by
  induction hf with
  | nil => intro result; rfl
  | cons hab htail ih =>
    intro result
    simp only [lsbpLoop, longest_congr hab, hab.1, hab.2.1]
    cases dictFind result _ with
    | none => apply ih
    | some v =>
      cases v
      dsimp only
      split_ifs <;> apply ih

theorem summary_congr {l₁ l₂ : List Habit} (hf : List.Forall₂ AgreeOn l₁ l₂) (today : Int) :
    habit_summary_with_current_streak l₁ today = habit_summary_with_current_streak l₂ today := by
  induction hf with
  | nil => rfl
  | cons hab htail ih =>
    simp only [habit_summary_with_current_streak, List.map_cons] at ih ⊢
    rw [hab.1, hab.2.1, current_congr hab today, ih]

theorem list_habits_congr {l₁ l₂ : List Habit} (hf : List.Forall₂ AgreeOn l₁ l₂) :
    list_habits l₁ = list_habits l₂ := by
  induction hf with
  | nil => rfl
  | cons hab htail ih =>
    rename_i a b t₁ t₂
    rw [list_habits, if_neg (List.cons_ne_nil a t₁),
      list_habits, if_neg (List.cons_ne_nil b t₂)]
    simp only [List.map_cons, hab.1, hab.2.1]
    have ih' := ih
    by_cases ht : t₁ = []
    · rw [ht] at htail ⊢
      cases htail
      rfl
    · have ht₂ : t₂ ≠ [] := by
        intro he
        rw [he] at htail
        cases htail
        exact ht rfl
      rw [list_habits, if_neg ht, list_habits, if_neg ht₂] at ih'
      rw [ih']

/-- C3 (amended): every analytics function is a deterministic pure function
of the habit fields it reads (name, periodicity, completions) together with
the explicitly injected reference date for the current-streak computations;
id, start date and the stored `max_streak` are irrelevant. -/
theorem C3_analytics_deterministic (h₁ h₂ : Habit) (hs₁ hs₂ : List Habit) (today : Int)
    (hh : AgreeOn h₁ h₂) (hhs : List.Forall₂ AgreeOn hs₁ hs₂) :
    longest_streak_for_habit h₁ = longest_streak_for_habit h₂ ∧
    current_streak_for_habit h₁ today = current_streak_for_habit h₂ today ∧
    list_habits hs₁ = list_habits hs₂ ∧
    habit_summary_with_current_streak hs₁ today = habit_summary_with_current_streak hs₂ today ∧
    longest_streak_all_habits hs₁ = longest_streak_all_habits hs₂ ∧
    longest_streak_by_periodicity hs₁ = longest_streak_by_periodicity hs₂ := by
  refine ⟨longest_congr hh, current_congr hh today, list_habits_congr hhs,
    summary_congr hhs today, ?_, ?_⟩
  · rw [longest_streak_all_habits, longest_streak_all_habits]
    by_cases he : hs₁ = []
    · rw [he] at hhs ⊢
      cases hhs
      rfl
    · have he₂ : hs₂ ≠ [] := by
        intro h2
        rw [h2] at hhs
        cases hhs
        exact he rfl
      rw [if_neg he, if_neg he₂, lsahLoop_congr hhs]
  · rw [longest_streak_by_periodicity, longest_streak_by_periodicity,
      lsbpLoop_congr hhs]

/-- Counterexample to C3 as stated: the source's `current_streak_for_habit`
reads the ambient current date (`date.today()`), so the same habit data gives
different results on different days; the function is not independent of the
wall clock. -/
theorem C3_wall_clock_counterexample :
    current_streak_for_habit exSingle 0 ≠ current_streak_for_habit exSingle 100 := by
  decide

/-- Witness for C3 (amended): two habits differing only on id, start date and
stored `max_streak` are indistinguishable to the analytics. -/
theorem C3_witness :
    AgreeOn exDaily exDailyAlt ∧
    longest_streak_for_habit exDaily = longest_streak_for_habit exDailyAlt ∧
    longest_streak_all_habits [exDaily] = longest_streak_all_habits [exDailyAlt] := by
  have hh : AgreeOn exDaily exDailyAlt := ⟨rfl, rfl, rfl⟩
  have hf : List.Forall₂ AgreeOn [exDaily] [exDailyAlt] :=
    List.Forall₂.cons hh List.Forall₂.nil
  have h := C3_analytics_deterministic exDaily exDailyAlt [exDaily] [exDailyAlt] 0 hh hf
  exact ⟨hh, h.1, h.2.2.2.2.1⟩

/-! ### The habit record operations -/

/-- C6: `complete` fails exactly when the completion date precedes the start
date, leaves the habit unchanged when it fails, and substitutes the current
date when no date is given. -/
theorem C6_complete_spec (h : Habit) (today d : Int) :
    ((∃ e, Habit.complete h today (some d) = .error e) ↔ d < h.start_date) ∧
    (d < h.start_date → applyComplete h today (some d) = h) ∧
    Habit.complete h today none = Habit.complete h today (some today) := by
  refine ⟨⟨?_, ?_⟩, ?_, rfl⟩
  · rintro ⟨e, he⟩
    by_contra hlt
    simp only [Habit.complete, Option.getD_some, if_neg hlt] at he
    split_ifs at he
  · intro hlt
    exact ⟨"completion date cannot be before than start date",
      by simp only [Habit.complete, Option.getD_some, if_pos hlt]⟩
  · intro hlt
    rw [applyComplete]
    simp only [Habit.complete, Option.getD_some, if_pos hlt]

theorem inv_applyOp (h : Habit) (op : Op) (hinv : Habit.inv h) :
    Habit.inv (applyOp h op) := by
  cases op with
  | reset =>
    exact ⟨hinv.1, by simp [applyOp, Habit.reset], by simp [applyOp, Habit.reset]⟩
  | complete today cd =>
    rw [applyOp, applyComplete]
    by_cases h1 : cd.getD today < h.start_date
    · simp only [Habit.complete, if_pos h1]
      exact hinv
    · by_cases h2 : cd.getD today ∈ h.completions
      · simp only [Habit.complete, if_neg h1, if_pos h2]
        exact hinv
      · simp only [Habit.complete, if_neg h1, if_neg h2]
        refine ⟨hinv.1, ?_, ?_⟩
        · intro x hx
          have hx' : x ∈ h.completions ++ [cd.getD today] := hx
          show h.start_date ≤ x
          rcases List.mem_append.mp hx' with hx2 | hx2
          · exact hinv.2.1 x hx2
          · rw [List.mem_singleton.mp hx2]
            omega
        · show (h.completions ++ [cd.getD today]).Nodup
          refine List.Nodup.append hinv.2.2 (List.nodup_singleton _) ?_
          intro a ha hb
          rw [List.mem_singleton.mp hb] at ha
          exact h2 ha

theorem inv_runOps (h : Habit) (ops : List Op) (hinv : Habit.inv h) :
    Habit.inv (runOps h ops) := by
  induction ops generalizing h with
  | nil => exact hinv
  | cons op rest ih => exact ih _ (inv_applyOp h op hinv)

/-- C7: construction succeeds exactly for daily/weekly periodicity, yields
empty completions, and every state reachable from a constructed habit by the
public operations satisfies the invariants (valid periodicity, no completion
before the start date, no duplicate completions). -/
theorem C7_invariants (habit_id : Int) (nm p : String) (sd : Int)
    (h₀ : Habit) (ops : List Op) :
    ((∃ h, Habit.create habit_id nm p sd = .ok h) ↔ (p = "daily" ∨ p = "weekly")) ∧
    (Habit.create habit_id nm p sd = .ok h₀ →
      h₀.completions = [] ∧ Habit.inv (runOps h₀ ops)) := by
  refine ⟨⟨?_, ?_⟩, ?_⟩
  · rintro ⟨h, hh⟩
    by_contra hp
    rw [Habit.create, if_neg hp] at hh
    exact Except.noConfusion hh
  · intro hp
    exact ⟨_, by rw [Habit.create, if_pos hp]⟩
  · intro hok
    have hp : p = "daily" ∨ p = "weekly" := by
      by_contra hp
      rw [Habit.create, if_neg hp] at hok
      exact Except.noConfusion hok
    rw [Habit.create, if_pos hp] at hok
    have hrec := Except.ok.inj hok
    rw [← hrec]
    refine ⟨rfl, inv_runOps _ ops ?_⟩
    exact ⟨hp, by simp, by simp⟩

/-- Witness for C7: a freshly created daily habit run through a short
operation sequence. -/
theorem C7_witness :
    exCreated.completions = [] ∧
    Habit.inv (runOps exCreated [Op.complete 0 (some 0), Op.complete 1 none, Op.reset]) :=
  (C7_invariants 7 "meditate" "daily" 0 exCreated
    [Op.complete 0 (some 0), Op.complete 1 none, Op.reset]).2 rfl

/-- C8: a second `complete` with the same date returns the state unchanged,
so completions (as a set) and both streak computations agree with the
single-completion state. -/
theorem C8_complete_idempotent (h : Habit) (today d : Int) (h' h'' : Habit)
    (h1 : Habit.complete h today (some d) = .ok h')
    (h2 : Habit.complete h' today (some d) = .ok h'') :
    h'' = h' ∧ h''.completions.toFinset = h'.completions.toFinset ∧
    longest_streak_for_habit h'' = longest_streak_for_habit h' ∧
    ∀ t, current_streak_for_habit h'' t = current_streak_for_habit h' t := by
  have hnlt : ¬ d < h.start_date := by
    intro hlt
    simp only [Habit.complete, Option.getD_some, if_pos hlt] at h1
    exact Except.noConfusion h1
  have hstart : h'.start_date = h.start_date := by
    simp only [Habit.complete, Option.getD_some, if_neg hnlt] at h1
    split_ifs at h1 <;> rw [← Except.ok.inj h1]
  have hmem : d ∈ h'.completions := by
    simp only [Habit.complete, Option.getD_some, if_neg hnlt] at h1
    split_ifs at h1 with hm
    · rw [← Except.ok.inj h1]
      exact hm
    · rw [← Except.ok.inj h1]
      simp
  have key : h'' = h' := by
    simp only [Habit.complete, Option.getD_some, hstart, if_neg hnlt, if_pos hmem] at h2
    exact (Except.ok.inj h2).symm
  subst key
  exact ⟨rfl, rfl, rfl, fun _ => rfl⟩

/-- Witness for C8: completing day 10 twice on a concrete habit. -/
theorem C8_witness :
    Habit.complete exDaily 0 (some 10) = .ok exDailyPlus ∧
    Habit.complete exDailyPlus 0 (some 10) = .ok exDailyPlus ∧
    exDailyPlus.completions.toFinset = exDailyPlus.completions.toFinset := by
  have e1 : Habit.complete exDaily 0 (some 10) = .ok exDailyPlus := by rfl
  have e2 : Habit.complete exDailyPlus 0 (some 10) = .ok exDailyPlus := by rfl
  exact ⟨e1, e2, (C8_complete_idempotent exDaily 0 10 exDailyPlus exDailyPlus e1 e2).2.1⟩

/-! ### The overall maximum with tie preservation -/

theorem lsahLoop_eq (rest : List Habit) :
    ∀ acc maxStreak, lsahLoop rest acc maxStreak =
      ((if (rest.map longest_streak_for_habit).foldr max 0 ≤ maxStreak then acc else [])
        ++ (rest.filter (fun h =>
              longest_streak_for_habit h
                = max maxStreak ((rest.map longest_streak_for_habit).foldr max 0))).map
            (fun h => h.name),
       max maxStreak ((rest.map longest_streak_for_habit).foldr max 0)) := by
  induction rest with
  | nil =>
    intro acc maxStreak
    simp [lsahLoop]
  | cons h t ih =>
    intro acc maxStreak
    simp only [lsahLoop, List.map_cons, List.foldr_cons, List.filter_cons]
    rcases Nat.lt_trichotomy maxStreak (longest_streak_for_habit h) with h1 | h1 | h1
    · rw [if_pos h1, ih]
      have hmax : max maxStreak (max (longest_streak_for_habit h)
            ((t.map longest_streak_for_habit).foldr max 0))
          = max (longest_streak_for_habit h) ((t.map longest_streak_for_habit).foldr max 0) := by
        omega
      simp only [hmax]
      have hcondf : ¬ (max (longest_streak_for_habit h)
          ((t.map longest_streak_for_habit).foldr max 0) ≤ maxStreak) := by omega
      rw [if_neg hcondf]
      by_cases hft : (t.map longest_streak_for_habit).foldr max 0 ≤ longest_streak_for_habit h
      · have heb : decide (longest_streak_for_habit h
            = max (longest_streak_for_habit h)
                ((t.map longest_streak_for_habit).foldr max 0)) = true := by
          simp only [decide_eq_true_eq]
          omega
        rw [if_pos hft, if_pos heb]
        simp
      · have hneb : ¬ (decide (longest_streak_for_habit h
            = max (longest_streak_for_habit h)
                ((t.map longest_streak_for_habit).foldr max 0)) = true) := by
          simp only [decide_eq_true_eq]
          omega
        rw [if_neg hft, if_neg hneb]
    · rw [if_neg (by omega : ¬ maxStreak < longest_streak_for_habit h), if_pos h1.symm, ih]
      have hmax : max maxStreak (max (longest_streak_for_habit h)
            ((t.map longest_streak_for_habit).foldr max 0))
          = max maxStreak ((t.map longest_streak_for_habit).foldr max 0) := by
        omega
      simp only [hmax]
      by_cases hft : (t.map longest_streak_for_habit).foldr max 0 ≤ maxStreak
      · have hc1 : max (longest_streak_for_habit h)
            ((t.map longest_streak_for_habit).foldr max 0) ≤ maxStreak := by omega
        have heb : decide (longest_streak_for_habit h
            = max maxStreak ((t.map longest_streak_for_habit).foldr max 0)) = true := by
          simp only [decide_eq_true_eq]
          omega
        rw [if_pos hft, if_pos hc1, if_pos heb]
        simp
      · have hc1 : ¬ (max (longest_streak_for_habit h)
            ((t.map longest_streak_for_habit).foldr max 0) ≤ maxStreak) := by omega
        have hneb : ¬ (decide (longest_streak_for_habit h
            = max maxStreak ((t.map longest_streak_for_habit).foldr max 0)) = true) := by
          simp only [decide_eq_true_eq]
          omega
        rw [if_neg hft, if_neg hc1, if_neg hneb]
    · rw [if_neg (by omega : ¬ maxStreak < longest_streak_for_habit h),
        if_neg (by omega : ¬ longest_streak_for_habit h = maxStreak), ih]
      have hmax : max maxStreak (max (longest_streak_for_habit h)
            ((t.map longest_streak_for_habit).foldr max 0))
          = max maxStreak ((t.map longest_streak_for_habit).foldr max 0) := by
        omega
      simp only [hmax]
      have hneb : ¬ (decide (longest_streak_for_habit h
          = max maxStreak ((t.map longest_streak_for_habit).foldr max 0)) = true) := by
        simp only [decide_eq_true_eq]
        omega
      rw [if_neg hneb]
      by_cases hft : (t.map longest_streak_for_habit).foldr max 0 ≤ maxStreak
      · have hc1 : max (longest_streak_for_habit h)
            ((t.map longest_streak_for_habit).foldr max 0) ≤ maxStreak := by omega
        rw [if_pos hft, if_pos hc1]
      · have hc1 : ¬ (max (longest_streak_for_habit h)
            ((t.map longest_streak_for_habit).foldr max 0) ≤ maxStreak) := by omega
        rw [if_neg hft, if_neg hc1]

/-- C4: `longest_streak_all_habits` returns the maximum longest streak over
the habit list together with the names of all habits achieving it, in input
order with ties preserved; the empty list yields no names and 0. -/
theorem C4_longest_all_spec (habits : List Habit) :
    longest_streak_all_habits habits =
      ((habits.filter (fun h => longest_streak_for_habit h = maxLongest habits)).map
          (fun h => h.name),
        maxLongest habits) := by
  rw [longest_streak_all_habits]
  by_cases he : habits = []
  · rw [if_pos he, he]
    rfl
  · rw [if_neg he, lsahLoop_eq]
    have h0 : max 0 ((habits.map longest_streak_for_habit).foldr max 0)
        = maxLongest habits := by
      rw [maxLongest]
      omega
    simp only [h0]
    split_ifs <;> simp [maxLongest]

/-! ### One winner per periodicity bucket -/

theorem filter_comm' (l : List String) (p q : String → Bool) :
    (l.filter p).filter q = (l.filter q).filter p := by
  rw [List.filter_filter, List.filter_filter]
  exact List.filter_congr (fun a _ => Bool.and_comm _ _)

theorem filter_idem (l : List String) (p : String → Bool) :
    (l.filter p).filter p = l.filter p := by
  rw [List.filter_filter]
  exact List.filter_congr (fun a _ => Bool.and_self _)

theorem dictFind_none_iff (R : List (String × String × Nat)) (key : String) :
    dictFind R key = none ↔ key ∉ R.map Prod.fst := by
  induction R with
  | nil => simp [dictFind]
  | cons e R ih =>
    obtain ⟨k, v⟩ := e
    simp only [List.map_cons, List.mem_cons]
    by_cases hk : k = key
    · subst hk
      simp [dictFind]
    · rw [show dictFind ((k, v) :: R) key = dictFind R key from by simp [dictFind, hk]]
      rw [ih]
      constructor
      · intro hnm hor
        rcases hor with hor | hor
        · exact hk hor.symm
        · exact hnm hor
      · intro hnm hm
        exact hnm (Or.inr hm)

theorem dictUpdate_keys (R : List (String × String × Nat)) (key : String) (val : String × Nat) :
    (dictUpdate R key val).map Prod.fst = R.map Prod.fst := by
  induction R with
  | nil => rfl
  | cons e R ih =>
    obtain ⟨k, v⟩ := e
    by_cases hk : k = key
    · simp [dictUpdate, hk]
    · simp [dictUpdate, hk, ih]

theorem mem_firstDedup (l : List String) (a : String) : a ∈ firstDedup l ↔ a ∈ l := by
  induction l with
  | nil => simp [firstDedup]
  | cons b l ih =>
    simp only [firstDedup, List.mem_cons, List.mem_filter]
    by_cases hab : a = b
    · simp [hab]
    · simp [hab, ih]

theorem firstDedup_filter (l : List String) (a : String) :
    (firstDedup l).filter (fun b => b ≠ a) = firstDedup (l.filter (fun b => b ≠ a)) := by
  induction l with
  | nil => rfl
  | cons x l ih =>
    by_cases hxa : x = a
    · subst hxa
      rw [show firstDedup (x :: l) = x :: (firstDedup l).filter (fun b => b ≠ x) from rfl]
      rw [List.filter_cons, if_neg (by simp)]
      rw [filter_idem, ih]
      congr 1
      rw [List.filter_cons, if_neg (by simp)]
    · rw [show firstDedup (x :: l) = x :: (firstDedup l).filter (fun b => b ≠ x) from rfl]
      rw [List.filter_cons, if_pos (by simp [hxa])]
      rw [filter_comm', ih]
      rw [show (x :: l).filter (fun b => b ≠ a) = x :: l.filter (fun b => b ≠ a) from by
        rw [List.filter_cons, if_pos (by simp [hxa])]]
      rfl

theorem filter_not_mem_append (t : List Habit) (ks : List String) (p : String) :
    (t.filter (fun hh => hh.periodicity ∉ ks)).filter (fun hh => hh.periodicity ≠ p)
      = t.filter (fun hh => hh.periodicity ∉ ks ++ [p]) := by
  rw [List.filter_filter]
  refine List.filter_congr ?_
  intro a _
  by_cases h1 : a.periodicity ∈ ks <;> by_cases h2 : a.periodicity = p <;>
    simp [h1, h2]

theorem map_per_filter_ne (t : List Habit) (p : String) (q : Habit → Bool) :
    ((t.filter q).map (fun h => h.periodicity)).filter (fun b => b ≠ p)
      = ((t.filter q).filter (fun hh => hh.periodicity ≠ p)).map (fun h => h.periodicity) := by
  rw [List.filter_map]
  rfl

theorem lsbpNew_cons_mem (ks : List String) (h : Habit) (t : List Habit)
    (hm : h.periodicity ∈ ks) :
    lsbpNew ks (h :: t) = lsbpNew ks t := by
  rw [lsbpNew, lsbpNew]
  have h1 : (h :: t).filter (fun hh => hh.periodicity ∉ ks)
      = t.filter (fun hh => hh.periodicity ∉ ks) := by
    rw [List.filter_cons, if_neg (by simp [hm])]
  rw [h1]
  refine List.map_congr_left ?_
  intro p hp
  have hp' : p ∈ (t.filter (fun hh => hh.periodicity ∉ ks)).map (fun h => h.periodicity) :=
    (mem_firstDedup _ _).mp hp
  obtain ⟨hh, hhm, hhp⟩ := List.mem_map.mp hp'
  have hnks : hh.periodicity ∉ ks := by
    simpa using (List.mem_filter.mp hhm).2
  have hne : h.periodicity ≠ p := by
    intro he
    rw [← hhp] at he
    exact hnks (he ▸ hm)
  congr 1
  rw [List.filter_cons, if_neg (by simp [hne])]

theorem lsbpNew_cons_not_mem (ks : List String) (h : Habit) (t : List Habit)
    (hm : h.periodicity ∉ ks) :
    lsbpNew ks (h :: t)
      = lsbpUpd t (h.periodicity, h.name, longest_streak_for_habit h)
          :: lsbpNew (ks ++ [h.periodicity]) t := by
  rw [lsbpNew]
  have h1 : (h :: t).filter (fun hh => hh.periodicity ∉ ks)
      = h :: t.filter (fun hh => hh.periodicity ∉ ks) := by
    rw [List.filter_cons, if_pos (by simp [hm])]
  rw [h1, List.map_cons]
  rw [show firstDedup (h.periodicity
        :: (t.filter (fun hh => hh.periodicity ∉ ks)).map (fun hh => hh.periodicity))
      = h.periodicity
        :: (firstDedup ((t.filter (fun hh => hh.periodicity ∉ ks)).map
              (fun hh => hh.periodicity))).filter (fun b => b ≠ h.periodicity) from rfl]
  rw [List.map_cons]
  congr 1
  · rw [lsbpUpd]
    rw [show (h :: t).filter (fun hh => hh.periodicity = h.periodicity)
        = h :: t.filter (fun hh => hh.periodicity = h.periodicity) from by
      rw [List.filter_cons, if_pos (by simp)]]
    rfl
  · rw [firstDedup_filter, map_per_filter_ne, filter_not_mem_append, lsbpNew]
    refine List.map_congr_left ?_
    intro p' hp'
    obtain ⟨hh, hhm, hhp⟩ := List.mem_map.mp ((mem_firstDedup _ _).mp hp')
    have hn : hh.periodicity ∉ ks ++ [h.periodicity] := by
      simpa using (List.mem_filter.mp hhm).2
    have hne : h.periodicity ≠ p' := by
      intro he
      apply hn
      rw [hhp, ← he]
      exact List.mem_append_right _ (List.mem_singleton_self _)
    congr 1
    rw [List.filter_cons, if_neg (by simp [hne])]

theorem map_upd_cons_of_not_mem (t : List Habit) (h : Habit)
    (R : List (String × String × Nat)) (hnm : h.periodicity ∉ R.map Prod.fst) :
    R.map (lsbpUpd (h :: t)) = R.map (lsbpUpd t) := by
  refine List.map_congr_left ?_
  intro e he
  have hk : e.1 ∈ R.map Prod.fst := List.mem_map_of_mem Prod.fst he
  have hne : h.periodicity ≠ e.1 := fun hEq => hnm (hEq ▸ hk)
  simp only [lsbpUpd]
  rw [List.filter_cons, if_neg (by simp [hne])]

theorem map_upd_cons_update (t : List Habit) (h : Habit) :
    ∀ (R : List (String × String × Nat)), (R.map Prod.fst).Nodup →
      ∀ bn bs, dictFind R h.periodicity = some (bn, bs) →
        R.map (lsbpUpd (h :: t)) =
          (if bs < longest_streak_for_habit h
            then dictUpdate R h.periodicity (h.name, longest_streak_for_habit h)
            else R).map (lsbpUpd t) := by
  intro R
  induction R with
  | nil =>
    intro _ bn bs hf
    exact absurd hf (by simp [dictFind])
  | cons e R' ih =>
    intro hnd bn bs hf
    obtain ⟨k, v⟩ := e
    by_cases hk : k = h.periodicity
    · subst hk
      have hv : v = (bn, bs) := by
        simpa [dictFind] using hf
      subst hv
      have hknm : h.periodicity ∉ R'.map Prod.fst :=
        (List.nodup_cons.mp (by simpa using hnd)).1
      have hhead : lsbpUpd (h :: t) (h.periodicity, bn, bs)
          = lsbpUpd t (h.periodicity,
              if bs < longest_streak_for_habit h
                then (h.name, longest_streak_for_habit h) else (bn, bs)) := by
        simp only [lsbpUpd]
        rw [show (h :: t).filter (fun hh => hh.periodicity = h.periodicity)
            = h :: t.filter (fun hh => hh.periodicity = h.periodicity) from by
          rw [List.filter_cons, if_pos (by simp)]]
        rfl
      by_cases hlt : bs < longest_streak_for_habit h
      · rw [if_pos hlt]
        rw [show dictUpdate ((h.periodicity, bn, bs) :: R') h.periodicity
              (h.name, longest_streak_for_habit h)
            = (h.periodicity, h.name, longest_streak_for_habit h) :: R' from by
          simp [dictUpdate]]
        rw [List.map_cons, List.map_cons, hhead, if_pos hlt]
        rw [map_upd_cons_of_not_mem t h R' hknm]
      · rw [if_neg hlt]
        rw [List.map_cons, List.map_cons, hhead, if_neg hlt]
        rw [map_upd_cons_of_not_mem t h R' hknm]
    · have hf' : dictFind R' h.periodicity = some (bn, bs) := by
        simpa [dictFind, hk] using hf
      have hnd' : (R'.map Prod.fst).Nodup := (List.nodup_cons.mp (by simpa using hnd)).2
      have hne : h.periodicity ≠ k := fun he => hk he.symm
      have hhead : lsbpUpd (h :: t) (k, v) = lsbpUpd t (k, v) := by
        simp only [lsbpUpd]
        rw [List.filter_cons, if_neg (by simp [hne])]
      by_cases hlt : bs < longest_streak_for_habit h
      · rw [if_pos hlt]
        rw [show dictUpdate ((k, v) :: R') h.periodicity (h.name, longest_streak_for_habit h)
            = (k, v) :: dictUpdate R' h.periodicity (h.name, longest_streak_for_habit h) from by
          simp [dictUpdate, hk]]
        rw [List.map_cons, List.map_cons, hhead]
        congr 1
        have hih := ih hnd' bn bs hf'
        rw [if_pos hlt] at hih
        exact hih
      · rw [if_neg hlt]
        rw [List.map_cons, List.map_cons, hhead]
        congr 1
        have hih := ih hnd' bn bs hf'
        rw [if_neg hlt] at hih
        exact hih

theorem lsbpLoop_eq (rest : List Habit) :
    ∀ R, (R.map Prod.fst).Nodup →
      lsbpLoop rest R = R.map (lsbpUpd rest) ++ lsbpNew (R.map Prod.fst) rest := by
  induction rest with
  | nil =>
    intro R hnd
    have hmap : R.map (lsbpUpd []) = R.map id :=
      List.map_congr_left (fun e _ => by simp [lsbpUpd, bucketFold])
    show R = R.map (lsbpUpd []) ++ lsbpNew (R.map Prod.fst) []
    rw [hmap, List.map_id]
    simp [lsbpNew, firstDedup]
  | cons h t ih =>
    intro R hnd
    cases hfind : dictFind R h.periodicity with
    | none =>
      have hnm : h.periodicity ∉ R.map Prod.fst := (dictFind_none_iff R _).mp hfind
      have hstep : lsbpLoop (h :: t) R
          = lsbpLoop t (R ++ [(h.periodicity, h.name, longest_streak_for_habit h)]) := by
        simp only [lsbpLoop, hfind]
      rw [hstep]
      have hnd2 : ((R ++ [(h.periodicity, h.name, longest_streak_for_habit h)]).map
          Prod.fst).Nodup := by
        rw [List.map_append]
        refine List.Nodup.append hnd (List.nodup_singleton _) ?_
        intro a ha hb
        simp only [List.map_cons, List.map_nil, List.mem_singleton] at hb
        subst hb
        exact hnm ha
      rw [ih _ hnd2, List.map_append, List.map_append,
        map_upd_cons_of_not_mem t h R hnm, lsbpNew_cons_not_mem _ h t hnm]
      simp [List.append_assoc]
    | some v =>
      obtain ⟨bn, bs⟩ := v
      have hmem : h.periodicity ∈ R.map Prod.fst := by
        by_contra hc
        rw [(dictFind_none_iff R _).mpr hc] at hfind
        exact Option.noConfusion hfind
      have hupd := map_upd_cons_update t h R hnd bn bs hfind
      by_cases hlt : bs < longest_streak_for_habit h
      · have hstep : lsbpLoop (h :: t) R
            = lsbpLoop t (dictUpdate R h.periodicity (h.name, longest_streak_for_habit h)) := by
          simp only [lsbpLoop, hfind]
          rw [if_pos hlt]
        rw [hstep, ih _ (by rw [dictUpdate_keys]; exact hnd), dictUpdate_keys,
          lsbpNew_cons_mem _ h t hmem]
        rw [if_pos hlt] at hupd
        rw [hupd]
      · have hstep : lsbpLoop (h :: t) R = lsbpLoop t R := by
          simp only [lsbpLoop, hfind]
          rw [if_neg hlt]
        rw [hstep, ih _ hnd, lsbpNew_cons_mem _ h t hmem]
        rw [if_neg hlt] at hupd
        rw [hupd]

/-- C5: `longest_streak_by_periodicity` has exactly the periodicity values of
the habits as keys, in first-occurrence order, and maps each periodicity to
the (name, longest streak) of the single best habit of that periodicity,
keeping the earliest habit on ties (its bucket fold only replaces the best on
a strictly larger streak). -/
theorem C5_by_periodicity_spec (habits : List Habit) :
    longest_streak_by_periodicity habits = lsbpSpec habits ∧
    (longest_streak_by_periodicity habits).map Prod.fst = keyOrder habits := by
  have h1 : longest_streak_by_periodicity habits = lsbpSpec habits := by
    rw [longest_streak_by_periodicity, lsbpLoop_eq habits [] (by simp)]
    rw [lsbpNew, lsbpSpec, keyOrder]
    simp only [List.map_nil, List.nil_append]
    have hf : habits.filter (fun hh => hh.periodicity ∉ ([] : List String)) = habits := by
      simp
    rw [hf]
  refine ⟨h1, ?_⟩
  rw [h1, lsbpSpec, List.map_map, keyOrder]
  have hc : (Prod.fst ∘ fun p =>
        (p, bucketWinner (habits.filter (fun h => h.periodicity = p)))) = id := by
    funext p
    rfl
  rw [hc, List.map_id]

/-- Witness for C6 at a date before the start date of a concrete habit. -/
theorem C6_witness :
    ((∃ e, Habit.complete exDaily 0 (some (-3)) = .error e) ↔ (-3 : Int) < exDaily.start_date) ∧
    applyComplete exDaily 0 (some (-3)) = exDaily := by
  have h := C6_complete_spec exDaily 0 (-3)
  exact ⟨h.1, h.2.1 (by decide)⟩

end HabitTracker
